import Mathlib

/-!
Verification development for the IVM dataflow core of this repository.

The pipeline under study is the one exercised by
`src/packages/zql/src/ivm/join.push.test.ts`: a `MemorySource` per table,
a one-to-many `Join` operator with primary-key-set scratch storage, and a
`Catch` recording pushed changes.  The implementation files of
`MemorySource` and `Join` are not part of the source tree given here, so
those operators are modelled from the specification, with every behaviour
pinned to the concrete expectations recorded by the test file (expected
logs, expected scratch keys, expected output changes).

Also embedded, directly from source files that are present:
`LeftJoinOperator` match bookkeeping
(`src/packages/zql/src/zql/ivm/graph/operators/left-join-operator.ts`),
`SourceHashIndexBackedDifferenceIndex` (`src/unnamed/part_005`), and the
`EntityQuery.asc` / `EntityQuery.desc` ordering canonicalization from the
query layer.
-/

namespace IVM

/-- A primitive column value.  All rows appearing in the join push tests carry
string values, so the model uses strings. -/
abbrev Value := String

/-- Modelled from the spec: a row is an unordered mapping from column name to
primitive value; rows in the model are association lists built once, in a
fixed column order, so structural equality coincides with deep row equality
as used by the source on `remove`. -/
abbrev Row := List (String × Value)

/-- Column lookup in a row; a column that is absent reads as the empty string
(the tests never read an absent column). -/
def Row.col (r : Row) (c : String) : Value :=
  match r.find? (fun p => p.1 == c) with
  | some p => p.2
  | none => ""

/-- Modelled from the spec: a node is a row together with named relationship
sequences of child nodes. -/
inductive Node where
  | mk (row : Row) (relationships : List (String × List Node))

/-- Modelled from the spec: the closed set of change variants travelling
between operators. -/
inductive Change where
  | add (node : Node)
  | remove (node : Node)
  | edit (oldRow row : Row)
  | child (row : Row) (relationshipName : String) (change : Change)

/-- Modelled from the spec: a primitive leaf-level change accepted by
`Source.push`. -/
inductive SourceChange where
  | add (row : Row)
  | remove (row : Row)
  | edit (oldRow row : Row)
deriving DecidableEq, Repr

/-- A fetch or cleanup call issued by the join against one of its inputs
during a push, together with its equality constraint; this mirrors the
`SnitchMessage` entries recorded in `expectedLog` of the push tests. -/
inductive JoinOp where
  | fetchChild (key : String) (value : Value)
  | cleanupChild (key : String) (value : Value)
  | fetchParent (key : String) (value : Value)
deriving DecidableEq, Repr

/-- Does some row of `rows` carry primary-key value `v` in column `pk`? -/
def hasPK (pk : String) (rows : List Row) (v : Value) : Bool :=
  rows.any (fun r => Row.col r pk == v)

/-- Modelled from the spec: `add(row)` on a memory source fails with
`DuplicatePrimaryKey` when the key is present, leaving state unchanged;
otherwise the row is inserted. -/
def sourceAdd (pk : String) (rows : List Row) (row : Row) : List Row :=
  if hasPK pk rows (Row.col row pk) then rows else rows ++ [row]

/-- Modelled from the spec: `remove(row)` requires a row with identical
column values (deep equality); on failure the push aborts with state
unchanged. -/
def sourceRemove (rows : List Row) (row : Row) : List Row :=
  if row ∈ rows then rows.filter (fun r => r ≠ row) else rows

/-- Precondition for a well-formed `edit` push: the old row is present and
the new primary key collides with no other row. -/
def editOK (pk : String) (rows : List Row) (oldRow row : Row) : Prop :=
  oldRow ∈ rows ∧
    ∀ r ∈ rows, r ≠ oldRow → Row.col r pk ≠ Row.col row pk

instance (pk : String) (rows : List Row) (oldRow row : Row) :
    Decidable (editOK pk rows oldRow row) := by
  unfold editOK; infer_instance

/-- Modelled from the spec: `edit(old, new)` replaces the old row by the new
row in the authoritative store. -/
def sourceEditRows (pk : String) (rows : List Row) (oldRow row : Row) : List Row :=
  if editOK pk rows oldRow row then rows.filter (fun r => r ≠ oldRow) ++ [row] else rows

/-- Modelled from the spec and pinned to the recorded behaviour of the join
push tests: a source push applies the primitive change and fans out a single
derived `Change` to each connection.  In particular — following the test
`edit id of issue`, whose expected log shows the connection receiving one
`edit` change for a push whose primary key differs between old and new row —
an `edit` is always forwarded as a single `edit` change, never decomposed
into `remove` plus `add` at the source boundary. -/
def sourcePush (pk : String) (rows : List Row) (c : SourceChange) :
    List Row × List Change :=
  match c with
  | .add row =>
      if hasPK pk rows (Row.col row pk) then (rows, [])
      else (rows ++ [row], [Change.add (Node.mk row [])])
  | .remove row =>
      if row ∈ rows then (rows.filter (fun r => r ≠ row), [Change.remove (Node.mk row [])])
      else (rows, [])
  | .edit oldRow row =>
      if editOK pk rows oldRow row then
        (rows.filter (fun r => r ≠ oldRow) ++ [row], [Change.edit oldRow row])
      else (rows, [])

/-- Static parameters of one join operator, as passed to the `Join`
constructor in the tests: join columns, relationship name, and the
primary-key column of each input. -/
structure JoinSpec where
  parentKey : String
  childKey : String
  relationshipName : String
  parentPK : String
  childPK : String
deriving DecidableEq, Repr

/-- The scratch key recorded for a parent row: the pair of its join-key
value and its primary-key value, as serialized by
`createPrimaryKeySetStorageKey`. -/
def parentScratchPair (J : JoinSpec) (r : Row) : Value × Value :=
  (Row.col r J.parentKey, Row.col r J.parentPK)

/-- Insert a scratch key, keeping the scratch duplicate-free. -/
def insertPair (s : List (Value × Value)) (p : Value × Value) : List (Value × Value) :=
  if p ∈ s then s else p :: s

/-- State of the two-source one-join pipeline built by `pushTest`: the rows
of the parent source, the rows of the child source, and the join's
primary-key-set scratch storage. -/
structure PipelineState where
  parentRows : List Row
  childRows : List Row
  scratch : List (Value × Value)
deriving DecidableEq

/-- Rows of the child source matching the constraint `childKey = v`, in the
child input's order. -/
def childMatches (J : JoinSpec) (childRows : List Row) (v : Value) : List Row :=
  childRows.filter (fun r => Row.col r J.childKey == v)

/-- Rows of the parent source matching the constraint `parentKey = v`. -/
def parentMatches (J : JoinSpec) (parentRows : List Row) (v : Value) : List Row :=
  parentRows.filter (fun r => Row.col r J.parentKey == v)

/-- A leaf node (no relationships) for a child row. -/
def childNode (r : Row) : Node := Node.mk r []

/-- The composed node for a parent row: the parent row with the named
relationship holding its current child nodes. -/
def parentNode (J : JoinSpec) (childRows : List Row) (r : Row) : Node :=
  Node.mk r [(J.relationshipName, (childMatches J childRows (Row.col r J.parentKey)).map childNode)]

/-- Modelled from the spec: the join's reaction to one change arriving from
the parent input.  `add` seeds the relationship from the child input and
records the scratch key; `remove` cleans the child constraint up and deletes
the scratch key; `edit` with unchanged join key forwards a single `edit`,
and an `edit` whose join key changed keeps the single `edit` but re-homes
the children, emitting `child` remove/add changes nested under the new row —
exactly the sequence recorded by the test `edit id of issue`. -/
def joinPushParent (J : JoinSpec) (childRows : List Row)
    (scratch : List (Value × Value)) (c : Change) :
    List (Value × Value) × List JoinOp × List Change :=
  match c with
  | .add (Node.mk row _) =>
      (insertPair scratch (parentScratchPair J row),
       [JoinOp.fetchChild J.childKey (Row.col row J.parentKey)],
       [Change.add (parentNode J childRows row)])
  | .remove (Node.mk row _) =>
      (scratch.filter (fun p => p ≠ parentScratchPair J row),
       [JoinOp.cleanupChild J.childKey (Row.col row J.parentKey)],
       [Change.remove (parentNode J childRows row)])
  | .edit oldRow row =>
      if Row.col oldRow J.parentKey == Row.col row J.parentKey then
        (insertPair (scratch.filter (fun p => p ≠ parentScratchPair J oldRow))
           (parentScratchPair J row),
         [],
         [Change.edit oldRow row])
      else
        (insertPair (scratch.filter (fun p => p ≠ parentScratchPair J oldRow))
           (parentScratchPair J row),
         [JoinOp.cleanupChild J.childKey (Row.col oldRow J.parentKey),
          JoinOp.fetchChild J.childKey (Row.col row J.parentKey)],
         [Change.edit oldRow row] ++
           (childMatches J childRows (Row.col oldRow J.parentKey)).map
             (fun r => Change.child row J.relationshipName (Change.remove (childNode r))) ++
           (childMatches J childRows (Row.col row J.parentKey)).map
             (fun r => Change.child row J.relationshipName (Change.add (childNode r))))
  | .child row name ch => (scratch, [], [Change.child row name ch])

/-- Modelled from the spec: the join's reaction to one change arriving from
the child input.  The join fetches the matching parents under
`parentKey = row[childKey]` and wraps the change in one `child` envelope per
matching parent; it stores no state for child-side changes. -/
def joinPushChild (J : JoinSpec) (parentRows : List Row) (c : Change) :
    List JoinOp × List Change :=
  match c with
  | .add (Node.mk row _) =>
      ([JoinOp.fetchParent J.parentKey (Row.col row J.childKey)],
       (parentMatches J parentRows (Row.col row J.childKey)).map
         (fun p => Change.child p J.relationshipName (Change.add (childNode row))))
  | .remove (Node.mk row _) =>
      ([JoinOp.fetchParent J.parentKey (Row.col row J.childKey)],
       (parentMatches J parentRows (Row.col row J.childKey)).map
         (fun p => Change.child p J.relationshipName (Change.remove (childNode row))))
  | .edit oldRow row =>
      if Row.col oldRow J.childKey == Row.col row J.childKey then
        ([JoinOp.fetchParent J.parentKey (Row.col row J.childKey)],
         (parentMatches J parentRows (Row.col row J.childKey)).map
           (fun p => Change.child p J.relationshipName (Change.edit oldRow row)))
      else
        ([JoinOp.fetchChild J.childKey (Row.col oldRow J.childKey),
          JoinOp.fetchParent J.parentKey (Row.col oldRow J.childKey),
          JoinOp.fetchParent J.parentKey (Row.col row J.childKey)],
         (parentMatches J parentRows (Row.col oldRow J.childKey)).map
           (fun p => Change.child p J.relationshipName (Change.remove (childNode oldRow))) ++
         (parentMatches J parentRows (Row.col row J.childKey)).map
           (fun p => Change.child p J.relationshipName (Change.add (childNode row))))
  | .child row name ch => ([], [Change.child row name ch])

/-- Source selector for a push: the parent source or the child source. -/
inductive Side where
  | parent
  | child
deriving DecidableEq, Repr

/-- One push into the pipeline: the selected source applies the primitive
change, each derived change runs through the join, and the join's input
calls and output changes are collected. -/
def pushPipeline (J : JoinSpec) (st : PipelineState) (side : Side)
    (c : SourceChange) : PipelineState × List JoinOp × List Change :=
  match side with
  | .parent =>
      let res := sourcePush J.parentPK st.parentRows c
      let folded := res.2.foldl
        (fun (acc : List (Value × Value) × List JoinOp × List Change) ch =>
          let step := joinPushParent J st.childRows acc.1 ch
          (step.1, acc.2.1 ++ step.2.1, acc.2.2 ++ step.2.2))
        (st.scratch, [], [])
      ({ st with parentRows := res.1, scratch := folded.1 }, folded.2.1, folded.2.2)
  | .child =>
      let res := sourcePush J.childPK st.childRows c
      let folded := res.2.foldl
        (fun (acc : List JoinOp × List Change) ch =>
          let step := joinPushChild J st.parentRows ch
          (acc.1 ++ step.1, acc.2 ++ step.2))
        ([], [])
      ({ st with childRows := res.1 }, folded.1, folded.2)

/-- Run a list of pushes, discarding logs and outputs. -/
def runPushes (J : JoinSpec) (st : PipelineState) :
    List (Side × SourceChange) → PipelineState
  | [] => st
  | p :: ps => runPushes J (pushPipeline J st p.1 p.2).1 ps

/-- The scratch contents produced by the initial hydrating fetch: one key
per parent row currently in the parent source. -/
def hydrateScratch (J : JoinSpec) (parentRows : List Row) : List (Value × Value) :=
  parentRows.foldl (fun s r => insertPair s (parentScratchPair J r)) []

/-- The pipeline state after `pushTest` setup: each source is loaded by
pushing `add` for each of its rows in order, then the top-level `fetch`
hydrates the join's scratch. -/
def initState (J : JoinSpec) (parentRows childRows : List Row) : PipelineState :=
  let ps := parentRows.foldl (sourceAdd J.parentPK) []
  let cs := childRows.foldl (sourceAdd J.childPK) []
  { parentRows := ps, childRows := cs, scratch := hydrateScratch J ps }

/-- The join configuration used throughout the one-to-many push tests:
issues joined to comments on `id = issueID`. -/
def commentsJoin : JoinSpec :=
  { parentKey := "id", childKey := "issueID", relationshipName := "comments",
    parentPK := "id", childPK := "id" }

/-- Primary-key uniqueness of a source's rows: no two rows agree on the
primary-key column. -/
def PKUnique (pk : String) (rows : List Row) : Prop :=
  List.Pairwise (fun a b => Row.col a pk ≠ Row.col b pk) rows

/-- The invariant carried through every push: parent primary keys are
unique, and the join scratch holds exactly one key per visible parent
row. -/
def PipelineInv (J : JoinSpec) (st : PipelineState) : Prop :=
  PKUnique J.parentPK st.parentRows ∧
    ∀ p, p ∈ st.scratch ↔ ∃ r ∈ st.parentRows, parentScratchPair J r = p

theorem mem_insertPair (s : List (Value × Value)) (p q : Value × Value) :
    p ∈ insertPair s q ↔ p = q ∨ p ∈ s := by
  unfold insertPair
  split
  · rename_i hq
    constructor
    · exact fun h => Or.inr h
    · rintro (rfl | h) <;> assumption
  · simp [List.mem_cons]

theorem mem_foldl_insertPair (f : Row → Value × Value) (rows : List Row)
    (s₀ : List (Value × Value)) (p : Value × Value) :
    p ∈ rows.foldl (fun s r => insertPair s (f r)) s₀ ↔
      p ∈ s₀ ∨ ∃ r ∈ rows, f r = p := by
  induction rows generalizing s₀ with
  | nil => simp
  | cons r rs ih =>
      simp only [List.foldl_cons, ih, mem_insertPair, List.mem_cons]
      aesop

theorem pkUnique_sourceAdd (pk : String) (rows : List Row) (row : Row)
    (h : PKUnique pk rows) : PKUnique pk (sourceAdd pk rows row) := by
  unfold sourceAdd
  split
  · exact h
  · rename_i hfree
    have hall : ∀ r ∈ rows, Row.col r pk ≠ Row.col row pk := by
      intro r hr heq
      apply hfree
      unfold hasPK
      exact List.any_eq_true.mpr ⟨r, hr, by simp [heq]⟩
    refine List.pairwise_append.mpr ⟨h, List.pairwise_singleton _ _, ?_⟩
    intro a ha b hb
    rcases List.mem_singleton.mp hb with rfl
    exact hall a ha

theorem pkUnique_foldl_sourceAdd (pk : String) (rows : List Row)
    (acc : List Row) (hacc : PKUnique pk acc) :
    PKUnique pk (rows.foldl (sourceAdd pk) acc) := by
  induction rows generalizing acc with
  | nil => exact hacc
  | cons r rs ih => exact ih _ (pkUnique_sourceAdd pk acc r hacc)

theorem pipelineInv_init (J : JoinSpec) (parentRows childRows : List Row) :
    PipelineInv J (initState J parentRows childRows) := by
  constructor
  · exact pkUnique_foldl_sourceAdd _ _ _ (List.Pairwise.nil)
  · intro p
    simp only [initState, hydrateScratch]
    rw [mem_foldl_insertPair]
    simp

theorem pkUnique_ne_col (pk : String) (rows : List Row)
    (h : PKUnique pk rows) {a b : Row} (ha : a ∈ rows) (hb : b ∈ rows)
    (hne : a ≠ b) : Row.col a pk ≠ Row.col b pk := by
  have hsymm : Symmetric (fun a b : Row => Row.col a pk ≠ Row.col b pk) :=
    fun x y h => fun e => h e.symm
  exact List.Pairwise.forall hsymm h ha hb hne
theorem mem_filter_ne {α : Type} [DecidableEq α] (l : List α) (x a : α) :
    a ∈ l.filter (fun r => r ≠ x) ↔ a ∈ l ∧ a ≠ x := by
  simp [List.mem_filter]

theorem pkUnique_filter_ne (pk : String) (rows : List Row) (x : Row)
    (h : PKUnique pk rows) : PKUnique pk (rows.filter (fun r => r ≠ x)) :=
  List.Pairwise.sublist (List.filter_sublist _) h

theorem pipelineInv_preserved (J : JoinSpec) (st : PipelineState)
    (side : Side) (c : SourceChange) (h : PipelineInv J st) :
    PipelineInv J (pushPipeline J st side c).1 := by
  obtain ⟨hpk, hsc⟩ := h
  cases side with
  | child =>
      cases c <;> exact ⟨hpk, hsc⟩
  | parent =>
      cases c with
      | add row =>
          by_cases hdup : hasPK J.parentPK st.parentRows (Row.col row J.parentPK)
          · simp only [pushPipeline, sourcePush, if_pos hdup]
            exact ⟨hpk, hsc⟩
          · simp only [pushPipeline, sourcePush, if_neg hdup, List.foldl_cons,
              List.foldl_nil, joinPushParent]
            constructor
            · show PKUnique J.parentPK (st.parentRows ++ [row])
              have h2 := pkUnique_sourceAdd J.parentPK st.parentRows row hpk
              unfold sourceAdd at h2
              rwa [if_neg hdup] at h2
            · intro p
              show p ∈ insertPair st.scratch (parentScratchPair J row) ↔
                ∃ r ∈ st.parentRows ++ [row], parentScratchPair J r = p
              rw [mem_insertPair, hsc p]
              constructor
              · rintro (rfl | ⟨r, hr, hfr⟩)
                · exact ⟨row, List.mem_append.mpr (Or.inr (List.mem_singleton.mpr rfl)), rfl⟩
                · exact ⟨r, List.mem_append.mpr (Or.inl hr), hfr⟩
              · rintro ⟨r, hr, hfr⟩
                rcases List.mem_append.mp hr with hr | hr
                · exact Or.inr ⟨r, hr, hfr⟩
                · rcases List.mem_singleton.mp hr with rfl
                  exact Or.inl hfr.symm
      | remove row =>
          by_cases hmem : row ∈ st.parentRows
          · simp only [pushPipeline, sourcePush, if_pos hmem, List.foldl_cons,
              List.foldl_nil, joinPushParent]
            constructor
            · show PKUnique J.parentPK (st.parentRows.filter (fun r => r ≠ row))
              exact pkUnique_filter_ne _ _ _ hpk
            · intro p
              show p ∈ st.scratch.filter (fun q => q ≠ parentScratchPair J row) ↔
                ∃ r ∈ st.parentRows.filter (fun r => r ≠ row), parentScratchPair J r = p
              rw [mem_filter_ne]
              rw [hsc p]
              constructor
              · rintro ⟨⟨r, hr, hfr⟩, hpne⟩
                refine ⟨r, (mem_filter_ne _ _ _).mpr ⟨hr, ?_⟩, hfr⟩
                rintro rfl
                exact hpne (hfr ▸ rfl)
              · rintro ⟨r, hr, hfr⟩
                obtain ⟨hr1, hrrow⟩ := (mem_filter_ne _ _ _).mp hr
                refine ⟨⟨r, hr1, hfr⟩, ?_⟩
                intro hpe
                have hcol : Row.col r J.parentPK = Row.col row J.parentPK := by
                  have heq : parentScratchPair J r = parentScratchPair J row := by
                    rw [hfr, hpe]
                  exact congrArg Prod.snd heq
                exact pkUnique_ne_col J.parentPK _ hpk hr1 hmem hrrow hcol
          · simp only [pushPipeline, sourcePush, if_neg hmem, List.foldl_nil]
            exact ⟨hpk, hsc⟩
      | edit oldRow row =>
          by_cases hok : editOK J.parentPK st.parentRows oldRow row
          · have hstep :
                (pushPipeline J st Side.parent (SourceChange.edit oldRow row)).1 =
                  { st with
                    parentRows := st.parentRows.filter (fun r => r ≠ oldRow) ++ [row],
                    scratch :=
                      insertPair
                        (st.scratch.filter (fun p => p ≠ parentScratchPair J oldRow))
                        (parentScratchPair J row) } := by
              simp only [pushPipeline, sourcePush, if_pos hok, List.foldl_cons,
                List.foldl_nil, joinPushParent]
              split <;> rfl
            rw [hstep]
            obtain ⟨hold, hfresh⟩ := hok
            constructor
            · show PKUnique J.parentPK (st.parentRows.filter (fun r => r ≠ oldRow) ++ [row])
              refine List.pairwise_append.mpr
                ⟨pkUnique_filter_ne _ _ _ hpk, List.pairwise_singleton _ _, ?_⟩
              intro a ha b hb
              rcases List.mem_singleton.mp hb with rfl
              obtain ⟨ha1, ha2⟩ := (mem_filter_ne _ _ _).mp ha
              exact hfresh a ha1 ha2
            · intro p
              show p ∈ insertPair
                  (st.scratch.filter (fun q => q ≠ parentScratchPair J oldRow))
                  (parentScratchPair J row) ↔
                ∃ r ∈ st.parentRows.filter (fun r => r ≠ oldRow) ++ [row],
                  parentScratchPair J r = p
              rw [mem_insertPair, mem_filter_ne, hsc p]
              constructor
              · rintro (rfl | ⟨⟨r, hr, hfr⟩, hpne⟩)
                · exact ⟨row, List.mem_append.mpr (Or.inr (List.mem_singleton.mpr rfl)), rfl⟩
                · refine ⟨r, List.mem_append.mpr (Or.inl ((mem_filter_ne _ _ _).mpr
                    ⟨hr, ?_⟩)), hfr⟩
                  rintro rfl
                  exact hpne (hfr ▸ rfl)
              · rintro ⟨r, hr, hfr⟩
                rcases List.mem_append.mp hr with hr | hr
                · obtain ⟨hr1, hrold⟩ := (mem_filter_ne _ _ _).mp hr
                  refine Or.inr ⟨⟨r, hr1, hfr⟩, ?_⟩
                  intro hpe
                  have hcol : Row.col r J.parentPK = Row.col oldRow J.parentPK := by
                    have heq : parentScratchPair J r = parentScratchPair J oldRow := by
                      rw [hfr, hpe]
                    exact congrArg Prod.snd heq
                  exact pkUnique_ne_col J.parentPK _ hpk hr1 hold hrold hcol
                · rcases List.mem_singleton.mp hr with rfl
                  exact Or.inl hfr.symm
          · simp only [pushPipeline, sourcePush, if_neg hok, List.foldl_nil]
            exact ⟨hpk, hsc⟩

theorem pipelineInv_runPushes (J : JoinSpec) (st : PipelineState)
    (pushes : List (Side × SourceChange)) (h : PipelineInv J st) :
    PipelineInv J (runPushes J st pushes) := by
  induction pushes generalizing st with
  | nil => exact h
  | cons p ps ih => exact ih _ (pipelineInv_preserved J st p.1 p.2 h)

/-- Claim C1: for a join with primary-key-set scratch storage, after any
sequence of source pushes (the model drains every lazy sequence eagerly),
the set of keys present in the join's scratch equals exactly the set of
pairs (parent join-key value, parent primary-key value) over the parent
rows currently visible above the join; in particular the scratch is empty
when no parent rows remain. -/
theorem scratch_tracks_visible_parents (J : JoinSpec)
    (parentRows childRows : List Row) (pushes : List (Side × SourceChange)) :
    (∀ p, p ∈ (runPushes J (initState J parentRows childRows) pushes).scratch ↔
        ∃ r ∈ (runPushes J (initState J parentRows childRows) pushes).parentRows,
          parentScratchPair J r = p) ∧
    ((runPushes J (initState J parentRows childRows) pushes).parentRows = [] →
      (runPushes J (initState J parentRows childRows) pushes).scratch = []) := by
  have h := pipelineInv_runPushes J (initState J parentRows childRows) pushes
    (pipelineInv_init J parentRows childRows)
  refine ⟨h.2, ?_⟩
  intro hempty
  have : ∀ p, p ∉ (runPushes J (initState J parentRows childRows) pushes).scratch := by
    intro p hp
    rcases (h.2 p).mp hp with ⟨r, hr, _⟩
    rw [hempty] at hr
    exact List.not_mem_nil r hr
  exact List.eq_nil_iff_forall_not_mem.mpr this

/-! Concrete rows from the push-test scenarios. -/

/-- The issue row of the small scenarios. -/
def rowI1 : Row := [("id", "i1")]

/-- A second issue row. -/
def rowI2 : Row := [("id", "i2")]

/-- The comment row attached to issue i1. -/
def rowC1 : Row := [("id", "c1"), ("issueID", "i1")]

/-- The comment row rebound to issue i2 (after the join-key edit). -/
def rowC1b : Row := [("id", "c1"), ("issueID", "i2")]

/-- The issue rows of the edit scenarios, carrying a text column. -/
def rowI1t : Row := [("id", "i1"), ("text", "issue 1")]

/-- Second issue row of the edit scenarios. -/
def rowI2t : Row := [("id", "i2"), ("text", "issue 2")]

/-- The edited issue row whose primary key changed from i1 to i3. -/
def rowI3t : Row := [("id", "i3"), ("text", "issue 1.3")]

/-- Comment rows of the edit scenarios. -/
def rowC1t : Row := [("id", "c1"), ("issueID", "i1"), ("text", "comment 1")]

/-- Second comment row of the edit scenarios. -/
def rowC2t : Row := [("id", "c2"), ("issueID", "i1"), ("text", "comment 2")]

/-- The comment row after the text-only edit. -/
def rowC1x : Row := [("id", "c1"), ("issueID", "i1"), ("text", "comment 1 edited")]

/-- Claim C2, counterexample.  In the scenario of the push test
`edit id of issue`, the source receives an `edit` whose primary-key column
changed from i1 to i3, and the connection receives exactly one change —
the `edit` itself — not a `remove` followed by an `add`: the claimed
source-boundary decomposition of primary-key-crossing edits does not
happen. -/
theorem source_forwards_pk_crossing_edit :
    (sourcePush "id" [rowI1t, rowI2t] (SourceChange.edit rowI1t rowI3t)).2 =
      [Change.edit rowI1t rowI3t] ∧
    Row.col rowI1t "id" ≠ Row.col rowI3t "id" :=
  ⟨rfl, by decide⟩

/-- Claim C2, amended: a source forwards every accepted `edit` push as
exactly one `edit` change to each connection, whether or not the
primary-key columns changed; no decomposition into `remove` plus `add`
happens at the source boundary. -/
theorem source_edit_single_change (pk : String) (rows : List Row)
    (oldRow row : Row) (hok : editOK pk rows oldRow row) :
    (sourcePush pk rows (SourceChange.edit oldRow row)).2 =
      [Change.edit oldRow row] := by
  simp only [sourcePush, if_pos hok]

/-- Witness for the amended C2 theorem at the `edit id of issue` input,
where the primary key does change. -/
theorem source_edit_single_change_witness :
    editOK "id" [rowI1t, rowI2t] rowI1t rowI3t ∧
    (sourcePush "id" [rowI1t, rowI2t] (SourceChange.edit rowI1t rowI3t)).2 =
      [Change.edit rowI1t rowI3t] :=
  ⟨by decide, source_edit_single_change "id" [rowI1t, rowI2t] rowI1t rowI3t (by decide)⟩

/-- Claim C3: in the scenario with parents i1, i2 and comment c1 under i1,
pushing the child edit that moves c1 from i1 to i2 emits exactly the child
remove under parent i1 followed by the child add under parent i2; and in
general a child edit whose join-key column is unchanged is forwarded as a
single child edit per matching parent. -/
theorem child_edit_rebinds_parent :
    (pushPipeline commentsJoin (initState commentsJoin [rowI1, rowI2] [rowC1])
        Side.child (SourceChange.edit rowC1 rowC1b)).2.2 =
      [Change.child rowI1 "comments" (Change.remove (Node.mk rowC1 [])),
       Change.child rowI2 "comments" (Change.add (Node.mk rowC1b []))] ∧
    ∀ (J : JoinSpec) (st : PipelineState) (oldRow row : Row),
      Row.col oldRow J.childKey = Row.col row J.childKey →
      editOK J.childPK st.childRows oldRow row →
      (pushPipeline J st Side.child (SourceChange.edit oldRow row)).2.2 =
        (parentMatches J st.parentRows (Row.col row J.childKey)).map
          (fun p => Change.child p J.relationshipName (Change.edit oldRow row)) := by
  constructor
  · rfl
  · intro J st oldRow row hkey hok
    have hkey' : (Row.col oldRow J.childKey == Row.col row J.childKey) = true := by
      simpa using hkey
    simp only [pushPipeline, sourcePush, if_pos hok, List.foldl_cons, List.foldl_nil,
      joinPushChild, if_pos hkey', List.nil_append]

/-- Witness for the general conjunct of C3, at the `edit comment text`
scenario where only the text column changes. -/
theorem child_edit_rebinds_parent_witness :
    Row.col rowC1t commentsJoin.childKey = Row.col rowC1x commentsJoin.childKey ∧
    editOK commentsJoin.childPK
      (initState commentsJoin [rowI1t] [rowC1t, rowC2t]).childRows rowC1t rowC1x ∧
    (pushPipeline commentsJoin (initState commentsJoin [rowI1t] [rowC1t, rowC2t])
        Side.child (SourceChange.edit rowC1t rowC1x)).2.2 =
      (parentMatches commentsJoin
          (initState commentsJoin [rowI1t] [rowC1t, rowC2t]).parentRows
          (Row.col rowC1x commentsJoin.childKey)).map
        (fun p => Change.child p commentsJoin.relationshipName
          (Change.edit rowC1t rowC1x)) :=
  ⟨by decide, by decide,
   (child_edit_rebinds_parent).2 commentsJoin
     (initState commentsJoin [rowI1t] [rowC1t, rowC2t]) rowC1t rowC1x
     (by decide) (by decide)⟩

/-- Claim C4: with parent i1 and child c1 under it, pushing remove of i1
to the parent source makes the join issue one cleanup call with constraint
issueID = i1 against the child input, emit exactly one remove whose
comments relationship carries the child node, and delete the scratch
entry, leaving the scratch empty. -/
theorem parent_remove_cleans_up :
    pushPipeline commentsJoin (initState commentsJoin [rowI1] [rowC1])
        Side.parent (SourceChange.remove rowI1) =
      ({ parentRows := [], childRows := [rowC1], scratch := [] },
       [JoinOp.cleanupChild "issueID" "i1"],
       [Change.remove (Node.mk rowI1 [("comments", [Node.mk rowC1 []])])]) :=
  rfl

/-- Claim C5: with parent i1 present and no children, pushing the add of
comment c1 under i1 makes the join fetch matching parents under
parentKey = row[childKey] (the recorded fetch with constraint id = i1) and
emit exactly one child add under parent i1; in general a child add emits
one child change per matching parent. -/
theorem child_add_emits_per_parent :
    pushPipeline commentsJoin (initState commentsJoin [rowI1] [])
        Side.child (SourceChange.add rowC1) =
      ({ parentRows := [rowI1], childRows := [rowC1], scratch := [("i1", "i1")] },
       [JoinOp.fetchParent "id" "i1"],
       [Change.child rowI1 "comments" (Change.add (Node.mk rowC1 []))]) ∧
    ∀ (J : JoinSpec) (st : PipelineState) (row : Row),
      ¬hasPK J.childPK st.childRows (Row.col row J.childPK) →
      (pushPipeline J st Side.child (SourceChange.add row)).2.2 =
        (parentMatches J st.parentRows (Row.col row J.childKey)).map
          (fun p => Change.child p J.relationshipName (Change.add (Node.mk row []))) := by
  constructor
  · rfl
  · intro J st row hfree
    simp only [pushPipeline, sourcePush, if_neg hfree, List.foldl_cons, List.foldl_nil,
      joinPushChild, childNode, List.nil_append]

/-- Witness for the general conjunct of C5 at the concrete scenario. -/
theorem child_add_emits_per_parent_witness :
    ¬hasPK commentsJoin.childPK (initState commentsJoin [rowI1] []).childRows
        (Row.col rowC1 commentsJoin.childPK) ∧
    (pushPipeline commentsJoin (initState commentsJoin [rowI1] [])
        Side.child (SourceChange.add rowC1)).2.2 =
      (parentMatches commentsJoin (initState commentsJoin [rowI1] []).parentRows
          (Row.col rowC1 commentsJoin.childKey)).map
        (fun p => Change.child p commentsJoin.relationshipName
          (Change.add (Node.mk rowC1 []))) :=
  ⟨by decide,
   (child_add_emits_per_parent).2 commentsJoin (initState commentsJoin [rowI1] [])
     rowC1 (by decide)⟩

/-- Claim C6: a parent-side add whose join-key value matches no child row
emits exactly one add whose named relationship is present and empty — the
node never lacks the relationship. -/
theorem parent_add_empty_relationship (J : JoinSpec) (st : PipelineState)
    (row : Row)
    (hfree : ¬hasPK J.parentPK st.parentRows (Row.col row J.parentPK))
    (hnone : childMatches J st.childRows (Row.col row J.parentKey) = []) :
    (pushPipeline J st Side.parent (SourceChange.add row)).2.2 =
      [Change.add (Node.mk row [(J.relationshipName, [])])] := by
  simp only [pushPipeline, sourcePush, if_neg hfree, List.foldl_cons, List.foldl_nil,
    joinPushParent, parentNode, hnone, List.map_nil, List.nil_append]

/-- Witness for C6 at the `fetch one child, add wrong parent` scenario:
the only child references i1 while the added parent is i2. -/
theorem parent_add_empty_relationship_witness :
    ¬hasPK commentsJoin.parentPK (initState commentsJoin [] [rowC1]).parentRows
        (Row.col rowI2 commentsJoin.parentPK) ∧
    childMatches commentsJoin (initState commentsJoin [] [rowC1]).childRows
        (Row.col rowI2 commentsJoin.parentKey) = [] ∧
    (pushPipeline commentsJoin (initState commentsJoin [] [rowC1])
        Side.parent (SourceChange.add rowI2)).2.2 =
      [Change.add (Node.mk rowI2 [(commentsJoin.relationshipName, [])])] :=
  ⟨by decide, by decide,
   parent_add_empty_relationship commentsJoin (initState commentsJoin [] [rowC1])
     rowI2 (by decide) (by decide)⟩

/-- Claim C7: a child-side add whose join-key value is referenced by no
visible parent row emits nothing downstream and leaves the join's
primary-key-set scratch storage unchanged. -/
theorem unmatched_child_add_is_noop (J : JoinSpec) (st : PipelineState)
    (row : Row)
    (hnone : parentMatches J st.parentRows (Row.col row J.childKey) = []) :
    (pushPipeline J st Side.child (SourceChange.add row)).2.2 = [] ∧
    (pushPipeline J st Side.child (SourceChange.add row)).1.scratch = st.scratch := by
  refine ⟨?_, rfl⟩
  by_cases hdup : hasPK J.childPK st.childRows (Row.col row J.childPK)
  · simp only [pushPipeline, sourcePush, if_pos hdup, List.foldl_nil]
  · simp only [pushPipeline, sourcePush, if_neg hdup, List.foldl_cons, List.foldl_nil,
      joinPushChild, hnone, List.map_nil, List.nil_append]

/-- Witness for C7 at the `fetch one parent, add wrong child` scenario:
the only parent is i1 while the added child references i2. -/
theorem unmatched_child_add_is_noop_witness :
    parentMatches commentsJoin (initState commentsJoin [rowI1] []).parentRows
        (Row.col [("id", "c1"), ("issueID", "i2")] commentsJoin.childKey) = [] ∧
    (pushPipeline commentsJoin (initState commentsJoin [rowI1] [])
        Side.child (SourceChange.add [("id", "c1"), ("issueID", "i2")])).2.2 = [] ∧
    (pushPipeline commentsJoin (initState commentsJoin [rowI1] [])
        Side.child (SourceChange.add [("id", "c1"), ("issueID", "i2")])).1.scratch =
      (initState commentsJoin [rowI1] []).scratch :=
  ⟨by decide,
   (unmatched_child_add_is_noop commentsJoin (initState commentsJoin [rowI1] [])
     [("id", "c1"), ("issueID", "i2")] (by decide)).1,
   (unmatched_child_add_is_noop commentsJoin (initState commentsJoin [rowI1] [])
     [("id", "c1"), ("issueID", "i2")] (by decide)).2⟩

/-! The ordering canonicalization of the query layer (`EntityQuery.asc` and
`EntityQuery.desc`).  In that code an `Ordering` is a list of columns paired
with one direction applying to the whole list. -/

/-- Direction of a query-layer ordering. -/
inductive Dir where
  | asc
  | desc
deriving DecidableEq, Repr

/-- Embedded from `EntityQuery.asc`: push the column id onto the requested
column list when it is not listed, and order by the resulting list
ascending. -/
def entityQueryAsc (cols : List String) : List String × Dir :=
  (if "id" ∈ cols then cols else cols ++ ["id"], Dir.asc)

/-- Embedded from `EntityQuery.desc`: push the column id onto the requested
column list when it is not listed, and order by the resulting list
descending. -/
def entityQueryDesc (cols : List String) : List String × Dir :=
  (if "id" ∈ cols then cols else cols ++ ["id"], Dir.desc)

/-- Three-way comparison of column values. -/
def cmpVal (a b : Value) : Ordering :=
  if a = b then Ordering.eq else if a < b then Ordering.lt else Ordering.gt

/-- Lexicographic comparison of two rows over a column list. -/
def cmpRows (cols : List String) (r1 r2 : Row) : Ordering :=
  match cols with
  | [] => Ordering.eq
  | c :: cs =>
      match cmpVal (Row.col r1 c) (Row.col r2 c) with
      | Ordering.eq => cmpRows cs r1 r2
      | o => o

theorem cmpVal_eq_iff (a b : Value) : cmpVal a b = Ordering.eq ↔ a = b := by
  unfold cmpVal
  split
  · rename_i heq
    simp [heq]
  · rename_i hne
    split
    · constructor
      · intro h
        exact absurd h (by simp)
      · intro h
        exact absurd h hne
    · constructor
      · intro h
        exact absurd h (by simp)
      · intro h
        exact absurd h hne

theorem cmpRows_eq_col (cols : List String) (r1 r2 : Row)
    (h : cmpRows cols r1 r2 = Ordering.eq) :
    ∀ c ∈ cols, Row.col r1 c = Row.col r2 c := by
  induction cols with
  | nil => intro c hc; exact absurd hc (List.not_mem_nil c)
  | cons c cs ih =>
      intro d hd
      unfold cmpRows at h
      rcases hcv : cmpVal (Row.col r1 c) (Row.col r2 c) with _ | _ | _
      · rw [hcv] at h
        exact absurd h (by simp)
      · rw [hcv] at h
        rcases List.mem_cons.mp hd with rfl | hd
        · exact (cmpVal_eq_iff _ _).mp hcv
        · exact ih h d hd
      · rw [hcv] at h
        exact absurd h (by simp)

/-- Claim C8, counterexample.  The query layer's `desc` appends the id
column when absent, but the resulting ordering carries one direction for
the whole column list — descending — so the appended primary-key column is
ordered descending, not in a fixed ascending direction as claimed. -/
theorem desc_appends_id_descending :
    entityQueryDesc ["name"] = (["name", "id"], Dir.desc) ∧ Dir.desc ≠ Dir.asc :=
  ⟨rfl, by decide⟩

/-- Claim C8, amended: both `asc` and `desc` append the id column when it
is not listed (leaving the list unchanged otherwise), the appended column
taking the requested direction of the whole ordering (ascending for `asc`,
descending for `desc`) rather than a fixed ascending direction; the
canonicalized column list still makes the ordering total: two rows that
compare equal over it agree on the id column. -/
theorem ordering_canonicalization (cols : List String) (r1 r2 : Row)
    (habs : "id" ∉ cols)
    (heq : cmpRows (entityQueryAsc cols).1 r1 r2 = Ordering.eq) :
    (entityQueryAsc cols).1 = cols ++ ["id"] ∧
    (entityQueryDesc cols).1 = cols ++ ["id"] ∧
    (entityQueryAsc cols).2 = Dir.asc ∧
    (entityQueryDesc cols).2 = Dir.desc ∧
    "id" ∈ (entityQueryAsc cols).1 ∧
    "id" ∈ (entityQueryDesc cols).1 ∧
    Row.col r1 "id" = Row.col r2 "id" := by
  have hlist : (entityQueryAsc cols).1 = cols ++ ["id"] := by
    simp only [entityQueryAsc, if_neg habs]
  have hlist2 : (entityQueryDesc cols).1 = cols ++ ["id"] := by
    simp only [entityQueryDesc, if_neg habs]
  refine ⟨hlist, hlist2, rfl, rfl, ?_, ?_, ?_⟩
  · rw [hlist]
    exact List.mem_append.mpr (Or.inr (List.mem_singleton.mpr rfl))
  · rw [hlist2]
    exact List.mem_append.mpr (Or.inr (List.mem_singleton.mpr rfl))
  · refine cmpRows_eq_col _ r1 r2 heq "id" ?_
    rw [hlist]
    exact List.mem_append.mpr (Or.inr (List.mem_singleton.mpr rfl))

/-- Witness for the amended C8 theorem: ordering by name appends id, and
two rows equal under the normalized ordering share their id value. -/
theorem ordering_canonicalization_witness :
    "id" ∉ ["name"] ∧
    cmpRows (entityQueryAsc ["name"]).1
        [("id", "r1"), ("name", "n")] [("id", "r1"), ("name", "n")] = Ordering.eq ∧
    (entityQueryAsc ["name"]).1 = ["name"] ++ ["id"] ∧
    Row.col [("id", "r1"), ("name", "n")] "id" =
      Row.col [("id", "r1"), ("name", "n")] "id" :=
  ⟨by decide, by decide,
   (ordering_canonicalization ["name"] [("id", "r1"), ("name", "n")]
     [("id", "r1"), ("name", "n")] (by decide) (by decide)).1,
   (ordering_canonicalization ["name"] [("id", "r1"), ("name", "n")]
     [("id", "r1"), ("name", "n")] (by decide) (by decide)).2.2.2.2.2.2⟩

/-! Embedding of the match bookkeeping of `LeftJoinOperator`
(`left-join-operator.ts`).  `combineRows(a, b, ...)` is modelled as an
opaque pairing of the a-row with an optional b-row; multiplicities are
integers as in the multiset layer. -/

/-- A row emitted by the left-join operator: `combineRows` applied to an
a-row and either a matching b-row or `undefined` for the unmatched case. -/
inductive JRow where
  | combined (a : Row) (b : Option Row)
deriving DecidableEq, Repr

/-- Lookup in the `aMatches` map, keyed by the a-side primary-key string. -/
def lookupMatch (m : List (String × JRow × Int)) (k : String) :
    Option (JRow × Int) :=
  (m.find? (fun e => e.1 == k)).map (fun e => e.2)

/-- `Map.set` on the `aMatches` map (keys are unique): replace the entry in
place when the key is present, append otherwise. -/
def setMatch : List (String × JRow × Int) → String → JRow × Int →
    List (String × JRow × Int)
  | [], k, v => [(k, v)]
  | e :: es, k, v => if e.1 == k then (k, v) :: es else e :: setMatch es k v

/-- Embedded from `LeftJoinOperator.#joinOneInner`, one iteration of the
loop over the a-entries found under the b-side join key: emit the joined
entry, then — when the a-row's accumulated match count crosses zero — the
retraction or re-emission of the row stored in `aMatches`, and accumulate
the join multiplicity into the stored count. -/
def joinOneInnerStep (getAPK : Row → String) (bValue : Row) (bMult : Int)
    (acc : List (JRow × Int) × List (String × JRow × Int)) (aEntry : Row × Int) :
    List (JRow × Int) × List (String × JRow × Int) :=
  match lookupMatch acc.2 (getAPK aEntry.1) with
  | none =>
      (acc.1 ++ [(JRow.combined aEntry.1 (some bValue), aEntry.2 * bMult)], acc.2)
  | some (u, c) =>
      (acc.1 ++ [(JRow.combined aEntry.1 (some bValue), aEntry.2 * bMult)] ++
         (if aEntry.2 * bMult > 0 ∧ c = 0 then [(u, -1)]
          else if aEntry.2 * bMult < 0 ∧ c + aEntry.2 * bMult = 0 then [(u, 1)]
          else []),
       setMatch acc.2 (getAPK aEntry.1) (u, c + aEntry.2 * bMult))

/-- Embedded from `LeftJoinOperator.#joinOneInner`: fold the step over the
a-entries under the b join key (an absent index entry behaves as the empty
list). -/
def joinOneInner (getAPK : Row → String) (aEntries : List (Row × Int))
    (aMatches : List (String × JRow × Int)) (bValue : Row) (bMult : Int) :
    List (JRow × Int) × List (String × JRow × Int) :=
  aEntries.foldl (joinOneInnerStep getAPK bValue bMult) ([], aMatches)

/-- Embedded from `LeftJoinOperator.#joinOneLeft`: when the b-side index
holds no entries under the a-row's join key, emit the unmatched row
(`combineRows` with `undefined`) with the a multiplicity and store it in
`aMatches` with count 0; otherwise emit one joined entry per b-entry,
accumulating the counts. -/
def joinOneLeft (getAPK : Row → String) (bEntries : Option (List (Row × Int)))
    (aMatches : List (String × JRow × Int)) (aValue : Row) (aMult : Int) :
    List (JRow × Int) × List (String × JRow × Int) :=
  match bEntries with
  | none =>
      ([(JRow.combined aValue none, aMult)],
       setMatch aMatches (getAPK aValue) (JRow.combined aValue none, 0))
  | some bs =>
      if bs = [] then
        ([(JRow.combined aValue none, aMult)],
         setMatch aMatches (getAPK aValue) (JRow.combined aValue none, 0))
      else
        bs.foldl
          (fun acc be =>
            match lookupMatch acc.2 (getAPK aValue) with
            | some (u, c) =>
                (acc.1 ++ [(JRow.combined aValue (some be.1), aMult * be.2)],
                 setMatch acc.2 (getAPK aValue) (u, c + aMult * be.2))
            | none =>
                (acc.1 ++ [(JRow.combined aValue (some be.1), aMult * be.2)],
                 setMatch acc.2 (getAPK aValue)
                   (JRow.combined aValue (some be.1), aMult * be.2)))
          ([], aMatches)

theorem lookupMatch_setMatch (m : List (String × JRow × Int)) (k : String)
    (v : JRow × Int) : lookupMatch (setMatch m k v) k = some v := by
  induction m with
  | nil => simp [setMatch, lookupMatch]
  | cons e es ih =>
      by_cases he : (e.1 == k) = true
      · simp [setMatch, he, lookupMatch]
      · simp only [setMatch, if_neg he]
        have he' : (e.1 == k) = false := by simpa using he
        unfold lookupMatch at ih ⊢
        simp only [List.find?, he']
        exact ih

/-- Claim C9: in `LeftJoinOperator`, for a parent row present once on the
a-side, a positive child entry arriving while the stored match count is
zero makes `joinOneInner` emit the joined entry followed by a retraction
with multiplicity -1 of the stored unmatched row; a negative child entry
that brings the count back to exactly zero makes it re-emit that row with
multiplicity +1; and `joinOneLeft` with no matching b-entries is what
emits the unmatched row and stores it with count 0. -/
theorem leftjoin_unmatched_transitions (getAPK : Row → String)
    (aMatches : List (String × JRow × Int)) (aRow bValue : Row) (u : JRow)
    (c bMult : Int) (hm : lookupMatch aMatches (getAPK aRow) = some (u, c)) :
    (c = 0 → 0 < bMult →
      (joinOneInner getAPK [(aRow, 1)] aMatches bValue bMult).1 =
        [(JRow.combined aRow (some bValue), bMult), (u, -1)]) ∧
    (bMult < 0 → c + bMult = 0 →
      (joinOneInner getAPK [(aRow, 1)] aMatches bValue bMult).1 =
        [(JRow.combined aRow (some bValue), bMult), (u, 1)]) ∧
    (∀ (aValue : Row) (aMult : Int),
      (joinOneLeft getAPK none aMatches aValue aMult).1 =
        [(JRow.combined aValue none, aMult)] ∧
      lookupMatch (joinOneLeft getAPK none aMatches aValue aMult).2 (getAPK aValue) =
        some (JRow.combined aValue none, 0)) := by
  refine ⟨?_, ?_, ?_⟩
  · intro hc hpos
    subst hc
    simp [joinOneInner, joinOneInnerStep, hm, hpos]
  · intro hneg hsum
    have h1 : ¬(bMult > 0) := not_lt.mpr (le_of_lt hneg)
    simp [joinOneInner, joinOneInnerStep, hm, h1, hneg, hsum]
  · intro aValue aMult
    refine ⟨rfl, ?_⟩
    simp only [joinOneLeft]
    exact lookupMatch_setMatch aMatches (getAPK aValue) (JRow.combined aValue none, 0)

/-- Witness for C9 at concrete inputs: a single a-row a1 keyed by id, with
stored unmatched row and count 0 for the positive transition, and count 1
with an incoming -1 entry for the transition back to unmatched. -/
theorem leftjoin_unmatched_transitions_witness :
    lookupMatch [("a1", (JRow.combined [("id", "a1")] none, (0 : Int)))] "a1" =
      some (JRow.combined [("id", "a1")] none, 0) ∧
    (joinOneInner (fun r => Row.col r "id") [([("id", "a1")], 1)]
        [("a1", (JRow.combined [("id", "a1")] none, 0))] [("id", "b1")] 2).1 =
      [(JRow.combined [("id", "a1")] (some [("id", "b1")]), 2),
       (JRow.combined [("id", "a1")] none, -1)] ∧
    lookupMatch [("a1", (JRow.combined [("id", "a1")] none, (1 : Int)))] "a1" =
      some (JRow.combined [("id", "a1")] none, 1) ∧
    (joinOneInner (fun r => Row.col r "id") [([("id", "a1")], 1)]
        [("a1", (JRow.combined [("id", "a1")] none, 1))] [("id", "b1")] (-1)).1 =
      [(JRow.combined [("id", "a1")] (some [("id", "b1")]), -1),
       (JRow.combined [("id", "a1")] none, 1)] :=
  ⟨by decide,
   (leftjoin_unmatched_transitions (fun r => Row.col r "id")
     [("a1", (JRow.combined [("id", "a1")] none, 0))] [("id", "a1")] [("id", "b1")]
     (JRow.combined [("id", "a1")] none) 0 2 (by decide)).1 rfl (by decide),
   by decide,
   (leftjoin_unmatched_transitions (fun r => Row.col r "id")
     [("a1", (JRow.combined [("id", "a1")] none, 1))] [("id", "a1")] [("id", "b1")]
     (JRow.combined [("id", "a1")] none) 1 (-1) (by decide)).2.1 (by decide) (by decide)⟩

/-! Embedding of `SourceHashIndexBackedDifferenceIndex` (part_005): an
overlay of multiset entries on top of a backing source hash index. -/

/-- State of the difference index: the overlay map from key to pushed
entries, and the backing source hash index from key to its set of rows. -/
structure DiffIndex where
  overlay : List (Value × List (Row × Int))
  source : List (Value × List Row)
deriving DecidableEq

/-- The overlay entries stored under a key (`overlayIndex.get(key) ?? []`). -/
def overlayAt (d : DiffIndex) (k : Value) : List (Row × Int) :=
  match d.overlay.find? (fun e => e.1 == k) with
  | some e => e.2
  | none => []

/-- The backing-index rows stored under a key (`sourceIndex.get(key) ?? []`). -/
def sourceAt (d : DiffIndex) (k : Value) : List Row :=
  match d.source.find? (fun e => e.1 == k) with
  | some e => e.2
  | none => []

/-- `Map.set` on the overlay (keys unique): replace in place or append. -/
def setOverlay : List (Value × List (Row × Int)) → Value → List (Row × Int) →
    List (Value × List (Row × Int))
  | [], k, v => [(k, v)]
  | e :: es, k, v => if e.1 == k then (k, v) :: es else e :: setOverlay es k v

/-- Embedded from `SourceHashIndexBackedDifferenceIndex.add`: an entry with
positive multiplicity is dropped (it is already present in the source);
otherwise the entry and its negation are both pushed onto the key's overlay
bucket. -/
def DiffIndex.add (d : DiffIndex) (k : Value) (e : Row × Int) : DiffIndex :=
  if e.2 > 0 then d
  else { d with overlay := setOverlay d.overlay k (overlayAt d k ++ [e, (e.1, -e.2)]) }

/-- `Map.set` on the result map built by `get` (JS `Map` semantics: update
in place, append when new). -/
def setRet : List (Row × Int) → Row → Int → List (Row × Int)
  | [], v, n => [(v, n)]
  | p :: ps, v, n => if p.1 = v then (v, n) :: ps else p :: setRet ps v n

/-- The multiplicity currently recorded for a row in the result map. -/
def getRet (m : List (Row × Int)) (v : Row) : Option Int :=
  (m.find? (fun p => p.1 == v)).map (fun p => p.2)

/-- Embedded from `SourceHashIndexBackedDifferenceIndex.get`: seed the
result map with every backing row at multiplicity 1, fold the overlay
entries in by accumulating their multiplicities, and return `undefined`
when the map is empty. -/
def DiffIndex.get (d : DiffIndex) (k : Value) : Option (List (Row × Int)) :=
  let base := (sourceAt d k).foldl (fun m v => setRet m v 1) []
  let ret := (overlayAt d k).foldl
    (fun m e => setRet m e.1 ((getRet m e.1).getD 0 + e.2)) base
  if ret = [] then none else some ret

/-- Embedded from `SourceHashIndexBackedDifferenceIndex.compact`: clear the
overlay. -/
def DiffIndex.compact (d : DiffIndex) : DiffIndex :=
  { d with overlay := [] }

theorem setRet_append_fresh (m : List (Row × Int)) (v : Row) (n : Int)
    (h : ∀ p ∈ m, p.1 ≠ v) : setRet m v n = m ++ [(v, n)] := by
  induction m with
  | nil => simp [setRet]
  | cons p ps ih =>
      have hp : p.1 ≠ v := h p (List.mem_cons_self p ps)
      simp only [setRet, if_neg hp, List.cons_append]
      rw [ih (fun q hq => h q (List.mem_cons_of_mem p hq))]

theorem foldl_setRet_one (l : List Row) :
    ∀ (m : List (Row × Int)), l.Nodup → (∀ v ∈ l, ∀ p ∈ m, p.1 ≠ v) →
      l.foldl (fun m v => setRet m v 1) m = m ++ l.map (fun v => (v, 1)) := by
  induction l with
  | nil =>
      intro m _ _
      simp
  | cons v vs ih =>
      intro m hnd hdis
      have hdis2 : ∀ w ∈ vs, ∀ q ∈ m ++ [(v, 1)], q.1 ≠ w := by
        intro w hw q hq
        rcases List.mem_append.mp hq with hq | hq
        · exact hdis w (List.mem_cons_of_mem v hw) q hq
        · rcases List.mem_singleton.mp hq with rfl
          intro hvw
          apply (List.nodup_cons.mp hnd).1
          rw [show v = w from hvw]
          exact hw
      rw [List.foldl_cons, setRet_append_fresh m v 1 (hdis v (List.mem_cons_self v vs)),
        ih (m ++ [(v, 1)]) (List.Nodup.of_cons hnd) hdis2, List.append_assoc]
      simp

/-- Claim C10: adding an entry with positive multiplicity to the
difference index leaves the state — hence the result of every subsequent
`get` — unchanged; and immediately after `compact`, `get` returns exactly
the rows stored under the key in the backing source hash index, each with
multiplicity 1, or `undefined` when the backing index holds no rows under
the key. -/
theorem diffindex_add_positive_noop_and_compact (d : DiffIndex)
    (ka kg k : Value) (e : Row × Int) (hpos : 0 < e.2)
    (hnd : (sourceAt d k).Nodup) :
    (d.add ka e).get kg = d.get kg ∧
    d.compact.get k =
      (if sourceAt d k = [] then none
       else some ((sourceAt d k).map (fun v => (v, 1)))) := by
  constructor
  · have hid : d.add ka e = d := by
      simp [DiffIndex.add, hpos]
    rw [hid]
  · have hov : overlayAt d.compact k = [] := by
      simp [overlayAt, DiffIndex.compact]
    have hso : sourceAt d.compact k = sourceAt d k := rfl
    show (if ((overlayAt d.compact k).foldl
            (fun m e => setRet m e.1 ((getRet m e.1).getD 0 + e.2))
            ((sourceAt d.compact k).foldl (fun m v => setRet m v 1) [])) = []
          then none
          else some ((overlayAt d.compact k).foldl
            (fun m e => setRet m e.1 ((getRet m e.1).getD 0 + e.2))
            ((sourceAt d.compact k).foldl (fun m v => setRet m v 1) []))) = _
    rw [hov, hso]
    simp only [List.foldl_nil]
    rw [foldl_setRet_one (sourceAt d k) [] hnd (by intro v hv p hp; cases hp)]

    simp only [List.nil_append]
    by_cases hsrc : sourceAt d k = []
    · rw [if_pos hsrc, if_pos (by simp [hsrc])]
    · rw [if_neg hsrc, if_neg (by simpa using hsrc)]

/-- Witness for C10: a difference index whose backing index holds two rows
under key x and nothing under key y. -/
theorem diffindex_add_positive_noop_and_compact_witness :
    (0 : Int) < 1 ∧
    (sourceAt { overlay := [], source := [("x", [[("id", "r1")], [("id", "r2")]])] }
        "x").Nodup ∧
    (DiffIndex.add { overlay := [], source := [("x", [[("id", "r1")], [("id", "r2")]])] }
        "x" ([("id", "r9")], 1)).get "x" =
      DiffIndex.get { overlay := [], source := [("x", [[("id", "r1")], [("id", "r2")]])] }
        "x" ∧
    (DiffIndex.compact
        { overlay := [], source := [("x", [[("id", "r1")], [("id", "r2")]])] }).get "x" =
      (if sourceAt { overlay := [], source := [("x", [[("id", "r1")], [("id", "r2")]])] }
            "x" = [] then none
       else some ((sourceAt
            { overlay := [], source := [("x", [[("id", "r1")], [("id", "r2")]])] }
            "x").map (fun v => (v, 1)))) :=
  ⟨by decide, by decide,
   (diffindex_add_positive_noop_and_compact
     { overlay := [], source := [("x", [[("id", "r1")], [("id", "r2")]])] }
     "x" "x" "x" ([("id", "r9")], 1) (by decide) (by decide)).1,
   (diffindex_add_positive_noop_and_compact
     { overlay := [], source := [("x", [[("id", "r1")], [("id", "r2")]])] }
     "x" "x" "x" ([("id", "r9")], 1) (by decide) (by decide)).2⟩

end IVM
